import Mathlib

/-!
Verification of the libclz string-buffer engine (`strbuf`).

A `strbuf` in the C source is a heap block whose first machine word stores
the buffer's "allocation size" and whose remaining bytes hold a C string.
We embed a buffer as a record `SB` with the stored size field `alloc` and
the byte region `mem`.  The byte region is a finite list of bytes; reading
past its end yields `0`, which models the determinized heap in which freshly
allocated memory is zero-filled (the C source leaves fresh bytes
indeterminate; the zero-filled determinization is the most favourable
reading for the code and is noted wherever a claim depends on it).
C strings are byte lists read up to the first null byte.
-/

set_option autoImplicit false

namespace Libclz

/-- Read the byte at offset `i` of a byte region; offsets past the end read `0`. -/
def readByte (m : List Nat) (i : Nat) : Nat := m.getD i 0

/-- Length of the C string stored at the start of a byte region: the offset
of the first null byte (the region is conceptually followed by zeros, so a
region with no explicit null has its string end at `m.length`). -/
def cstrlen : List Nat → Nat
  | [] => 0
  | b :: m => if b = 0 then 0 else cstrlen m + 1

/-- The C-string content of a byte region: its bytes up to the first null. -/
def sContent (m : List Nat) : List Nat := m.take (cstrlen m)

theorem readByte_nil (i : Nat) : readByte [] i = 0 := rfl

theorem readByte_cons_zero (b : Nat) (m : List Nat) : readByte (b :: m) 0 = b := rfl

theorem readByte_cons_succ (b : Nat) (m : List Nat) (i : Nat) :
    readByte (b :: m) (i + 1) = readByte m i := rfl

theorem readByte_ge_length (m : List Nat) (i : Nat) (h : m.length ≤ i) :
    readByte m i = 0 := by
  induction m generalizing i with
  | nil => rfl
  | cons b t ih =>
    cases i with
    | zero => simp at h
    | succ j => exact ih j (by simpa using h)

theorem readByte_tail (m : List Nat) (i : Nat) : readByte m.tail i = readByte m (i + 1) := by
  cases m <;> rfl

theorem readByte_append (a b : List Nat) (i : Nat) :
    readByte (a ++ b) i = if i < a.length then readByte a i else readByte b (i - a.length) := by
  induction a generalizing i with
  | nil => simp [readByte]
  | cons x t ih =>
    cases i with
    | zero => simp [readByte_cons_zero]
    | succ j =>
      simp only [List.cons_append, readByte_cons_succ, ih, List.length_cons]
      by_cases hj : j < t.length
      · rw [if_pos hj, if_pos (by omega)]
      · rw [if_neg hj, if_neg (by omega)]
        congr 1
        omega

theorem readByte_take (m : List Nat) (k i : Nat) :
    readByte (m.take k) i = if i < k then readByte m i else 0 := by
  induction m generalizing k i with
  | nil => simp [readByte]
  | cons b t ih =>
    cases k with
    | zero => simp [readByte]
    | succ k' =>
      cases i with
      | zero => simp [readByte_cons_zero]
      | succ j => simpa [readByte_cons_succ] using ih k' j

theorem readByte_drop (m : List Nat) (k i : Nat) :
    readByte (m.drop k) i = readByte m (k + i) := by
  induction m generalizing k with
  | nil => simp [readByte]
  | cons b t ih =>
    cases k with
    | zero => simp
    | succ k' =>
      have : k' + 1 + i = k' + i + 1 := by omega
      simp only [List.drop_succ_cons, ih, this, readByte_cons_succ]

theorem readByte_replicate (n c i : Nat) :
    readByte (List.replicate n c) i = if i < n then c else 0 := by
  induction n generalizing i with
  | zero => simp [readByte]
  | succ n' ih =>
    cases i with
    | zero => simp [List.replicate, readByte_cons_zero]
    | succ j =>
      simp only [List.replicate, readByte_cons_succ, ih]
      by_cases hj : j < n'
      · rw [if_pos hj, if_pos (by omega)]
      · rw [if_neg hj, if_neg (by omega)]

theorem eq_of_readByte (a b : List Nat) (hlen : a.length = b.length)
    (h : ∀ i, readByte a i = readByte b i) : a = b := by
  induction a generalizing b with
  | nil => cases b with
    | nil => rfl
    | cons y t => simp at hlen
  | cons x t ih =>
    cases b with
    | nil => simp at hlen
    | cons y u =>
      have h0 := h 0
      simp only [readByte_cons_zero] at h0
      subst h0
      have := ih u (by simpa using hlen) (fun i => by simpa [readByte_cons_succ] using h (i + 1))
      rw [this]

theorem cstrlen_le_length (m : List Nat) : cstrlen m ≤ m.length := by
  induction m with
  | nil => simp [cstrlen]
  | cons b t ih =>
    simp only [cstrlen, List.length_cons]
    split
    · omega
    · omega

theorem readByte_cstrlen_self (m : List Nat) : readByte m (cstrlen m) = 0 := by
  induction m with
  | nil => rfl
  | cons b t ih =>
    simp only [cstrlen]
    split
    · simpa [readByte_cons_zero]
    · simpa [readByte_cons_succ] using ih

theorem readByte_lt_cstrlen (m : List Nat) (i : Nat) (h : i < cstrlen m) :
    readByte m i ≠ 0 := by
  induction m generalizing i with
  | nil => simp [cstrlen] at h
  | cons b t ih =>
    simp only [cstrlen] at h
    split at h
    · omega
    · cases i with
      | zero => simpa [readByte_cons_zero] using by assumption
      | succ j => exact by simpa [readByte_cons_succ] using ih j (by omega)

theorem cstrlen_eq_of (m : List Nat) (L : Nat)
    (h1 : ∀ i < L, readByte m i ≠ 0) (h2 : readByte m L = 0) : cstrlen m = L := by
  rcases Nat.lt_trichotomy (cstrlen m) L with h | h | h
  · exact absurd (readByte_cstrlen_self m) (h1 _ h)
  · exact h
  · exact absurd h2 (readByte_lt_cstrlen m L h)

theorem length_sContent (m : List Nat) : (sContent m).length = cstrlen m := by
  simp [sContent, cstrlen_le_length]

theorem readByte_sContent (m : List Nat) (i : Nat) :
    readByte (sContent m) i = if i < cstrlen m then readByte m i else 0 := by
  simp [sContent, readByte_take]

theorem cstrlen_sContent (m : List Nat) : cstrlen (sContent m) = cstrlen m := by
  apply cstrlen_eq_of
  · intro i hi
    rw [readByte_sContent, if_pos hi]
    exact readByte_lt_cstrlen m i hi
  · rw [readByte_sContent, if_neg (by omega)]

theorem sContent_sContent (m : List Nat) : sContent (sContent m) = sContent m := by
  apply eq_of_readByte
  · rw [length_sContent, length_sContent, cstrlen_sContent]
  · intro i
    rw [readByte_sContent, readByte_sContent, cstrlen_sContent]
    by_cases h : i < cstrlen m <;> simp [h]

/-- A byte region has a zero tail when every byte from the terminator
onward is null.  Regions freshly written by full-string copies have this
shape; the trim and first-replace operations can break it by leaving stale
bytes behind the new terminator. -/
def ZeroTail (m : List Nat) : Prop := ∀ i < m.length, cstrlen m ≤ i → readByte m i = 0

instance (m : List Nat) : Decidable (ZeroTail m) := by
  unfold ZeroTail
  infer_instance

theorem ZeroTail.readByte_zero {m : List Nat} (h : ZeroTail m) {i : Nat}
    (hi : cstrlen m ≤ i) : readByte m i = 0 := by
  by_cases hl : i < m.length
  · exact h i hl hi
  · exact readByte_ge_length m i (by omega)

theorem zeroTail_nil : ZeroTail [] := by
  intro i hi
  simp at hi

/-- Byte region extended with zeros up to length `k` (allocation padding). -/
def padTo (m : List Nat) (k : Nat) : List Nat := m ++ List.replicate (k - m.length) 0

theorem length_padTo (m : List Nat) (k : Nat) : (padTo m k).length = max m.length k := by
  simp [padTo]
  omega

theorem readByte_padTo (m : List Nat) (k i : Nat) : readByte (padTo m k) i = readByte m i := by
  rw [padTo, readByte_append]
  split
  · rfl
  · rw [readByte_replicate, readByte_ge_length m i (by omega)]
    split <;> rfl

/-- Overwrite the bytes at offsets `pos, pos+1, ...` with the list `bs`,
zero-extending the region first if it is too short (fresh heap bytes are
modeled as zero). -/
def writeBytes (m : List Nat) (pos : Nat) (bs : List Nat) : List Nat :=
  (padTo m (pos + bs.length)).take pos ++ bs ++ (padTo m (pos + bs.length)).drop (pos + bs.length)

theorem length_writeBytes (m : List Nat) (pos : Nat) (bs : List Nat) :
    (writeBytes m pos bs).length = max m.length (pos + bs.length) := by
  simp [writeBytes, length_padTo]
  omega

theorem readByte_writeBytes (m : List Nat) (pos : Nat) (bs : List Nat) (i : Nat) :
    readByte (writeBytes m pos bs) i =
      if i < pos then readByte m i
      else if i < pos + bs.length then readByte bs (i - pos)
      else readByte m i := by
  have hlen : ((padTo m (pos + bs.length)).take pos).length = pos := by
    simp [length_padTo]
  rw [writeBytes, List.append_assoc, readByte_append, hlen]
  by_cases h1 : i < pos
  · rw [if_pos h1, if_pos h1, readByte_take, if_pos h1, readByte_padTo]
  · rw [if_neg h1, if_neg h1, readByte_append]
    by_cases h2 : i < pos + bs.length
    · rw [if_pos (by omega), if_pos h2]
    · rw [if_neg (by omega), if_neg h2, readByte_drop, readByte_padTo]
      congr 1
      omega

theorem writeBytes_nil_zero (bs : List Nat) : writeBytes [] 0 bs = bs := by
  apply eq_of_readByte
  · simp [length_writeBytes]
  · intro i
    rw [readByte_writeBytes]
    simp only [Nat.zero_add, Nat.sub_zero, readByte_nil]
    split
    · omega
    · split
      · rfl
      · rw [readByte_ge_length bs i (by omega)]

/-- The exactly-`n` bytes written by `strncpy(dst, src, n)`: the first
`min n (strlen src)` bytes of `src`, zero-padded to `n` bytes in total.
`strncpy` writes no terminator when `strlen src >= n`. -/
def strncpyBytes (src : List Nat) (n : Nat) : List Nat := padTo ((sContent src).take n) n

theorem length_strncpyBytes (src : List Nat) (n : Nat) : (strncpyBytes src n).length = n := by
  simp [strncpyBytes, length_padTo, length_sContent]

theorem readByte_strncpyBytes (src : List Nat) (n i : Nat) :
    readByte (strncpyBytes src n) i =
      if i < n then (if i < cstrlen src then readByte src i else 0) else 0 := by
  rw [strncpyBytes, readByte_padTo, readByte_take, readByte_sContent]

/-- Model of `strncpy(m + pos, src, n)`. -/
def strncpyAt (m : List Nat) (pos : Nat) (src : List Nat) (n : Nat) : List Nat :=
  writeBytes m pos (strncpyBytes src n)

/-- Model of `strcpy(m + pos, src)`: copies the string and its terminator. -/
def strcpyAt (m : List Nat) (pos : Nat) (src : List Nat) : List Nat :=
  writeBytes m pos (sContent src ++ [0])

theorem strcpyAt_nil_zero (src : List Nat) : strcpyAt [] 0 src = sContent src ++ [0] := by
  rw [strcpyAt, writeBytes_nil_zero]

theorem drop_sContent (m : List Nat) (k : Nat) (hk : k ≤ cstrlen m) :
    sContent (m.drop k) = (sContent m).drop k := by
  have hcs : cstrlen (m.drop k) = cstrlen m - k := by
    apply cstrlen_eq_of
    · intro i hi
      rw [readByte_drop]
      exact readByte_lt_cstrlen m (k + i) (by omega)
    · rw [readByte_drop]
      have : k + (cstrlen m - k) = cstrlen m := by omega
      rw [this]
      exact readByte_cstrlen_self m
  apply eq_of_readByte
  · rw [length_sContent, hcs, List.length_drop, length_sContent]
  · intro i
    rw [readByte_sContent, hcs, readByte_drop, readByte_drop, readByte_sContent]
    by_cases h : i < cstrlen m - k
    · rw [if_pos h, if_pos (by omega)]
    · rw [if_neg h, if_neg (by omega)]

/- ===== constants and the buffer record (strbuf.h) ===== -/

/-- CLZ_STRBUF_ALLOC: default (starting) size for a string buffer. -/
def CLZ_STRBUF_ALLOC : Nat := 32

/-- CLZ_NOT_FOUND sentinel from clz.h. -/
def CLZ_NOT_FOUND : Int := -1

/-- CLZ_GENERAL_FAIL sentinel from clz.h. -/
def CLZ_GENERAL_FAIL : Int := -2

/-- A strbuf: the stored allocation-size word that sits in front of the
data pointer, and the data byte region. -/
structure SB where
  alloc : Nat
  mem : List Nat
deriving DecidableEq

/-- size_t strbuf_alloc_size(char *strbuf): reads the stored size word. -/
def strbuf_alloc_size (b : SB) : Nat := b.alloc

/-- char *strbuf_new_size(size_t sz): the C code mallocs
`CLZ_STRBUF_ALLOC * sizeof(char) + sizeof(size_t)` bytes — always 32 data
bytes regardless of `sz` — and stores `sz` itself, unrounded, in the size
word (`*sb = sz`).  Fresh data bytes are modeled as zeros. -/
def strbuf_new_size (sz : Nat) : SB := ⟨sz, []⟩

/-- char *strbuf_new(): `strbuf_new_size(CLZ_STRBUF_ALLOC)`. -/
def strbuf_new : SB := strbuf_new_size CLZ_STRBUF_ALLOC

/-- The loop `for (sz = s; sz < minsize; sz *= 2);` of strbuf_resize,
written with explicit fuel; the caller passes fuel that provably exceeds
the number of doublings needed (the loop starts at `len + 1 >= 1`). -/
def growLoop : Nat → Nat → Nat → Nat
  | 0, s, _ => s
  | fuel + 1, s, minsize => if s < minsize then growLoop fuel (2 * s) minsize else s

/-- bool strbuf_resize(char **dest, size_t minsize): rejects when
`len >= minsize + 1`; otherwise doubles `sz` from `len + 1` until
`sz >= minsize`, allocates, and copies the string with `strcpy` into the
fresh region. -/
def strbuf_resize (b : SB) (minsize : Nat) : Bool × SB :=
  let len := cstrlen b.mem
  if len ≥ minsize + 1 then (false, b)
  else
    let sz := growLoop minsize (len + 1) minsize
    (true, ⟨sz, strcpyAt [] 0 b.mem⟩)

/-- bool strbuf_compress(char **dest): `strbuf_resize(dest, strlen(*dest))`. -/
def strbuf_compress (b : SB) : Bool × SB := strbuf_resize b (cstrlen b.mem)

/-- bool strbuf_append_strn(char **dest, char *src, size_t n): grows when
the stored size is below `strlen(*dest) + strlen(src) + 1`, then performs
`strncpy(*dest + strlen(*dest), src, n)` — which writes no terminator when
`n <= strlen(src)`. -/
def strbuf_append_strn (b : SB) (src : List Nat) (n : Nat) : Bool × SB :=
  let minsize := cstrlen b.mem + cstrlen src + 1
  if strbuf_alloc_size b < minsize then
    let r := strbuf_resize b minsize
    if r.1 then
      (true, ⟨r.2.alloc, strncpyAt r.2.mem (cstrlen r.2.mem) src n⟩)
    else (false, b)
  else
    (true, ⟨b.alloc, strncpyAt b.mem (cstrlen b.mem) src n⟩)

/-- bool strbuf_append_str(char **dest, char *src). -/
def strbuf_append_str (b : SB) (src : List Nat) : Bool × SB :=
  strbuf_append_strn b src (cstrlen src)

/-- bool strbuf_append_char(char **destbuf, char c): builds the two-byte
string `{c, 0}` and appends at most 1 byte of it. -/
def strbuf_append_char (b : SB) (c : Nat) : Bool × SB :=
  strbuf_append_strn b [c] 1

/-- bool strbuf_insert_strn(char **destbuf, char *s, size_t index, size_t maxlen). -/
def strbuf_insert_strn (b : SB) (s : List Nat) (index maxlen : Nat) : Bool × SB :=
  if index > cstrlen b.mem then (false, b)
  else
    let len_s := cstrlen s
    let maxlen' := if maxlen > len_s then len_s else maxlen
    let bufnew := strbuf_new_size (strbuf_alloc_size b + maxlen')
    let r1 := strbuf_append_strn bufnew b.mem index
    let r2 := strbuf_append_strn r1.2 s maxlen'
    let r3 := strbuf_append_str r2.2 (b.mem.drop index)
    if r1.1 && r2.1 && r3.1 then (true, r3.2) else (false, b)

/-- bool strbuf_insert_str(char **destbuf, char *s, size_t index). -/
def strbuf_insert_str (b : SB) (s : List Nat) (index : Nat) : Bool × SB :=
  strbuf_insert_strn b s index (cstrlen s)

/-- bool strbuf_insert_char(char **destbuf, char c, size_t index). -/
def strbuf_insert_char (b : SB) (c : Nat) (index : Nat) : Bool × SB :=
  if index > cstrlen b.mem then (false, b)
  else
    let bufnew := strbuf_new_size (strbuf_alloc_size b + 1)
    let r1 := strbuf_append_strn bufnew b.mem index
    let r2 := strbuf_append_char r1.2 c
    let r3 := strbuf_append_str r2.2 (b.mem.drop index)
    if r1.1 && r2.1 && r3.1 then (true, r3.2) else (false, b)

/-- void strbuf_trim_index(char **destbuf, size_t start, size_t end):
clamps `end` to the length, clears the string when `start >= len` or
`start >= end` (a single `**destbuf = 0` byte write), and otherwise copies
`end - start` bytes via a temporary `cpy` (`strncpy` then `strcpy`); the
trailing byte of `cpy` is fresh heap memory, modeled as zero. -/
def strbuf_trim_index (b : SB) (start e : Nat) : SB :=
  let len := cstrlen b.mem
  let e' := if e > len then len else e
  if start ≥ len ∨ start ≥ e' then ⟨b.alloc, writeBytes b.mem 0 [0]⟩
  else if e' = 0 then b
  else
    let cpy := strncpyBytes (b.mem.drop start) (e' - start)
    ⟨b.alloc, strcpyAt b.mem 0 cpy⟩

/-- void strbuf_trim_length(char **destbuf, size_t length). -/
def strbuf_trim_length (b : SB) (len : Nat) : SB := strbuf_trim_index b 0 len

/-- The capacity loop of strbuf_clone for `bufsz == false`:
`size_t s = 2; while (s <= strlen(strbuf) || s < CLZ_STRBUF_ALLOC) s *= 2;`
written with explicit fuel (always called with enough fuel). -/
def cloneCapLoop : Nat → Nat → Nat → Nat
  | 0, s, _ => s
  | fuel + 1, s, n =>
    if s ≤ n ∨ s < CLZ_STRBUF_ALLOC then cloneCapLoop fuel (2 * s) n else s

/-- char *strbuf_clone(char *strbuf, bool bufsz) for `bufsz == false`:
picks the capacity via the doubling loop, allocates with strbuf_new_size,
and appends the source string. -/
def strbuf_clone_false (src : List Nat) : SB :=
  let n := cstrlen src
  let s := cloneCapLoop (n + CLZ_STRBUF_ALLOC) 2 n
  let nb := strbuf_new_size s
  (strbuf_append_str nb src).2

/-- char *strbuf_new_str(char *s): `strbuf_clone(s, false)`. -/
def strbuf_new_str (s : List Nat) : SB := strbuf_clone_false s

/- ===== search loops ===== -/

/-- The scan `for (i = start; i < start + rem; ++i) if (p i) return i;`
common to the find functions. -/
def scanFrom (p : Nat → Bool) : Nat → Nat → Option Nat
  | _, 0 => none
  | i, rem + 1 => if p i then some i else scanFrom p (i + 1) rem

/-- First index `i < n` satisfying `p`. -/
def findIdxLt (p : Nat → Bool) (n : Nat) : Option Nat := scanFrom p 0 n

/-- Whether `strncmp(a, b, n) == 0`: compare byte by byte, stopping at a
difference or at a null byte present in both. -/
def strncmpZero : List Nat → List Nat → Nat → Bool
  | _, _, 0 => true
  | a, b, n + 1 =>
    if readByte a 0 = readByte b 0 then
      if readByte a 0 = 0 then true else strncmpZero a.tail b.tail n
    else false

/-- int strbuf_find_first_char(char **destbuf, char c), acting on the raw
byte region (the function reads only the string). -/
def findFirstCharMem (m : List Nat) (c : Nat) : Int :=
  match findIdxLt (fun i => readByte m i == c) (cstrlen m) with
  | some i => (i : Int)
  | none => CLZ_NOT_FOUND

/-- int strbuf_find_first_char(char **destbuf, char c). -/
def strbuf_find_first_char (b : SB) (c : Nat) : Int := findFirstCharMem b.mem c

/-- int strbuf_find_first_str(char **destbuf, char *s), acting on the raw
byte region: first `i < strlen(m)` with `strncmp(m + i, s, strlen(s)) == 0`. -/
def findFirstStrMem (m : List Nat) (s : List Nat) : Int :=
  match findIdxLt (fun i => strncmpZero (m.drop i) s (cstrlen s)) (cstrlen m) with
  | some i => (i : Int)
  | none => CLZ_NOT_FOUND

/-- int strbuf_find_first_str(char **destbuf, char *s). -/
def strbuf_find_first_str (b : SB) (s : List Nat) : Int := findFirstStrMem b.mem s

/-- int strbuf_replace_first_char(char **destbuf, char c, char v). -/
def strbuf_replace_first_char (b : SB) (c v : Nat) : Int × SB :=
  let i := strbuf_find_first_char b c
  if i = CLZ_NOT_FOUND then (CLZ_NOT_FOUND, b)
  else (i, ⟨b.alloc, writeBytes b.mem i.toNat [v]⟩)

/-- bool strbuf_reverse(char **destbuf): `strdup` the string (the `ok`
flag models whether that allocation succeeds), then write byte
`cpy[len - 1 - i]` at offset `i` for each `i < len`. -/
def strbuf_reverse (ok : Bool) (b : SB) : Bool × SB :=
  if ok then
    let cpy := sContent b.mem
    (true, ⟨b.alloc, writeBytes b.mem 0 cpy.reverse⟩)
  else (false, b)

/-- int strbuf_replace_first_str(char **destbuf, char *s, char *t).
`allocOk` models the one checked allocation, `malloc(strlen(*destbuf) +
strlen(t) - strlen(s) + 1)`; when it fails the function returns
CLZ_GENERAL_FAIL.  The two clones and the final unchecked resize are
modeled as succeeding.  `sprintf("%s%s%s", start, t, end)` concatenates
the three strings. -/
def strbuf_replace_first_str (allocOk : Bool) (b : SB) (s t : List Nat) : Int × SB :=
  let ind := strbuf_find_first_str b s
  if ind = CLZ_NOT_FOUND then (CLZ_NOT_FOUND, b)
  else
    let start0 := strbuf_clone_false b.mem
    let start1 := strbuf_trim_index start0 0 ind.toNat
    let end0 := strbuf_clone_false b.mem
    let end1 := strbuf_trim_index end0 (ind.toNat + cstrlen s) (cstrlen b.mem)
    if allocOk then
      let buf := sContent start1.mem ++ sContent t ++ sContent end1.mem
      let len := cstrlen buf
      let b1 := if len ≥ strbuf_alloc_size b then (strbuf_resize b (len + 1)).2 else b
      (ind, ⟨b1.alloc, strcpyAt b1.mem 0 buf⟩)
    else (CLZ_GENERAL_FAIL, b)

/-- The loop of strbuf_replace_all_str, with explicit fuel.  Each
iteration finds the needle in the remaining haystack, appends the
unmatched span and the replacement to `newbuf`, and advances the haystack
by `head + strlen(s)`.  With an empty needle on a nonempty haystack the C
loop never advances; the fueled model returns `none` in that case. -/
def replaceAllLoop (s t : List Nat) : Nat → SB → List Nat → Nat → Option (SB × Nat)
  | 0, _, _, _ => none
  | fuel + 1, newbuf, hay, count =>
    let head := findFirstStrMem hay s
    if head = CLZ_NOT_FOUND then
      some ((strbuf_append_str newbuf hay).2, count)
    else
      let nb1 := (strbuf_append_strn newbuf hay head.toNat).2
      let nb2 := (strbuf_append_str nb1 t).2
      replaceAllLoop s t fuel nb2 (hay.drop (head.toNat + cstrlen s)) (count + 1)

/-- size_t strbuf_replace_all_str(char **destbuf, char *s, char *t):
starts from a fresh buffer of the same stored size, runs the scan loop,
and finally appends the haystack tail; `none` models divergence of the C
loop (possible only for an empty needle). -/
def strbuf_replace_all_str (b : SB) (s t : List Nat) : Option (SB × Nat) :=
  let newbuf := strbuf_new_size (strbuf_alloc_size b)
  replaceAllLoop s t (b.mem.length + 1) newbuf b.mem 0

/- ===== general lemmas about the operations ===== -/

theorem cstrlen_content_zero (m : List Nat) : cstrlen (sContent m ++ [0]) = cstrlen m := by
  apply cstrlen_eq_of
  · intro i hi
    rw [readByte_append, length_sContent, if_pos hi, readByte_sContent, if_pos hi]
    exact readByte_lt_cstrlen m i hi
  · rw [readByte_append, length_sContent, if_neg (by omega)]
    simp [readByte]

theorem sContent_content_zero (m : List Nat) : sContent (sContent m ++ [0]) = sContent m := by
  apply eq_of_readByte
  · rw [length_sContent, cstrlen_content_zero, length_sContent]
  · intro i
    rw [readByte_sContent, cstrlen_content_zero, readByte_sContent, readByte_append,
      length_sContent]
    by_cases h : i < cstrlen m
    · rw [if_pos h, if_pos h, if_pos h, readByte_sContent, if_pos h]
    · rw [if_neg h, if_neg h]

theorem zeroTail_content_zero (m : List Nat) : ZeroTail (sContent m ++ [0]) := by
  intro i hlen hi
  rw [cstrlen_content_zero] at hi
  rw [readByte_append, length_sContent]
  rw [if_neg (by omega)]
  have : i - cstrlen m < 1 := by
    simp only [List.length_append, length_sContent, List.length_singleton] at hlen
    omega
  interval_cases h : i - cstrlen m
  · rfl

theorem strbuf_resize_spec (b : SB) (minsize : Nat) (h : cstrlen b.mem ≤ minsize) :
    strbuf_resize b minsize =
      (true, ⟨growLoop minsize (cstrlen b.mem + 1) minsize, sContent b.mem ++ [0]⟩) := by
  rw [strbuf_resize, strcpyAt_nil_zero]
  simp only [if_neg (show ¬ cstrlen b.mem ≥ minsize + 1 by omega)]

theorem strncpyAt_end_spec (m src : List Nat) (n : Nat) (hm : ZeroTail m) :
    cstrlen (strncpyAt m (cstrlen m) src n) = cstrlen m + min n (cstrlen src) ∧
    sContent (strncpyAt m (cstrlen m) src n) = sContent m ++ (sContent src).take n ∧
    ZeroTail (strncpyAt m (cstrlen m) src n) := by
  set L := cstrlen m with hL
  set K := min n (cstrlen src) with hK
  have hread : ∀ i, readByte (strncpyAt m L src n) i =
      if i < L then readByte m i
      else if i < L + n then (if i - L < cstrlen src ∧ i - L < n then readByte src (i - L) else 0)
      else readByte m i := by
    intro i
    rw [strncpyAt, readByte_writeBytes, length_strncpyBytes, readByte_strncpyBytes]
    by_cases h1 : i < L
    · rw [if_pos h1, if_pos h1]
    · rw [if_neg h1, if_neg h1]
      by_cases h2 : i < L + n
      · rw [if_pos h2, if_pos h2, if_pos (by omega)]
        by_cases h3 : i - L < cstrlen src
        · rw [if_pos h3, if_pos (by constructor <;> omega)]
        · rw [if_neg h3, if_neg (by omega)]
      · rw [if_neg h2, if_neg h2]
  have hcs : cstrlen (strncpyAt m L src n) = L + K := by
    apply cstrlen_eq_of
    · intro i hi
      rw [hread]
      by_cases h1 : i < L
      · rw [if_pos h1]
        exact readByte_lt_cstrlen m i h1
      · rw [if_neg h1, if_pos (by omega), if_pos (by omega)]
        exact readByte_lt_cstrlen src (i - L) (by omega)
    · rw [hread]
      by_cases hKn : K < n
      · rw [if_neg (by omega), if_pos (by omega), if_neg (by omega)]
      · rw [if_neg (by omega), if_neg (by omega)]
        exact hm.readByte_zero (by omega)
  refine ⟨hcs, ?_, ?_⟩
  · apply eq_of_readByte
    · rw [length_sContent, hcs, List.length_append, length_sContent, List.length_take,
        length_sContent]
    · intro i
      rw [readByte_sContent, hcs, readByte_append, length_sContent, readByte_take,
        readByte_sContent, readByte_sContent]
      by_cases h1 : i < L
      · rw [if_pos (by omega), if_pos h1, hread, if_pos h1, if_pos h1]
      · by_cases h2 : i < L + K
        · rw [if_pos h2, if_neg h1, if_pos (by omega), if_pos (by omega), hread,
            if_neg h1, if_pos (by omega), if_pos (by constructor <;> omega)]
        · rw [if_neg (by omega), if_neg h1]
          by_cases h3 : i - L < n
          · rw [if_pos h3, if_neg (by omega)]
          · rw [if_neg h3]
  · intro i hlen hi
    rw [hcs] at hi
    rw [hread]
    by_cases h1 : i < L
    · omega
    · rw [if_neg h1]
      by_cases h2 : i < L + n
      · rw [if_pos h2]
        rw [if_neg (by omega)]
      · rw [if_neg h2]
        exact hm.readByte_zero (by omega)

theorem strbuf_append_strn_eq_grow (b : SB) (src : List Nat) (n : Nat)
    (hc : strbuf_alloc_size b < cstrlen b.mem + cstrlen src + 1) :
    strbuf_append_strn b src n =
      (true, ⟨growLoop (cstrlen b.mem + cstrlen src + 1) (cstrlen b.mem + 1)
          (cstrlen b.mem + cstrlen src + 1),
        strncpyAt (sContent b.mem ++ [0]) (cstrlen (sContent b.mem ++ [0])) src n⟩) := by
  rw [strbuf_append_strn, if_pos hc, strbuf_resize_spec b _ (by omega)]
  rfl

theorem strbuf_append_strn_eq_fit (b : SB) (src : List Nat) (n : Nat)
    (hc : ¬ strbuf_alloc_size b < cstrlen b.mem + cstrlen src + 1) :
    strbuf_append_strn b src n =
      (true, ⟨b.alloc, strncpyAt b.mem (cstrlen b.mem) src n⟩) := by
  rw [strbuf_append_strn, if_neg hc]

theorem strbuf_append_strn_spec (b : SB) (src : List Nat) (n : Nat) (hb : ZeroTail b.mem) :
    (strbuf_append_strn b src n).1 = true ∧
    sContent (strbuf_append_strn b src n).2.mem = sContent b.mem ++ (sContent src).take n ∧
    ZeroTail (strbuf_append_strn b src n).2.mem := by
  by_cases hc : strbuf_alloc_size b < cstrlen b.mem + cstrlen src + 1
  · rw [strbuf_append_strn_eq_grow b src n hc]
    have h2 := strncpyAt_end_spec (sContent b.mem ++ [0]) src n (zeroTail_content_zero b.mem)
    rw [sContent_content_zero] at h2
    exact ⟨rfl, h2.2.1, h2.2.2⟩
  · rw [strbuf_append_strn_eq_fit b src n hc]
    have h2 := strncpyAt_end_spec b.mem src n hb
    exact ⟨rfl, h2.2.1, h2.2.2⟩

theorem take_full_sContent (src : List Nat) :
    (sContent src).take (cstrlen src) = sContent src := by
  rw [← length_sContent, List.take_length]

theorem strbuf_append_str_spec (b : SB) (src : List Nat) (hb : ZeroTail b.mem) :
    (strbuf_append_str b src).1 = true ∧
    sContent (strbuf_append_str b src).2.mem = sContent b.mem ++ sContent src ∧
    ZeroTail (strbuf_append_str b src).2.mem := by
  have h := strbuf_append_strn_spec b src (cstrlen src) hb
  rw [take_full_sContent] at h
  exact h

theorem strbuf_insert_strn_spec (b : SB) (s : List Nat) (index maxlen : Nat)
    (hidx : index ≤ cstrlen b.mem) :
    (strbuf_insert_strn b s index maxlen).1 = true ∧
    sContent (strbuf_insert_strn b s index maxlen).2.mem =
      (sContent b.mem).take index ++ (sContent s).take (min maxlen (cstrlen s)) ++
        (sContent b.mem).drop index ∧
    ZeroTail (strbuf_insert_strn b s index maxlen).2.mem := by
  have hml : (if maxlen > cstrlen s then cstrlen s else maxlen) = min maxlen (cstrlen s) := by
    split <;> omega
  obtain ⟨h1f, h1c, h1z⟩ :=
    strbuf_append_strn_spec (strbuf_new_size (strbuf_alloc_size b + min maxlen (cstrlen s)))
      b.mem index zeroTail_nil
  obtain ⟨h2f, h2c, h2z⟩ := strbuf_append_strn_spec
    (strbuf_append_strn (strbuf_new_size (strbuf_alloc_size b + min maxlen (cstrlen s)))
      b.mem index).2 s (min maxlen (cstrlen s)) h1z
  obtain ⟨h3f, h3c, h3z⟩ := strbuf_append_str_spec
    (strbuf_append_strn (strbuf_append_strn
        (strbuf_new_size (strbuf_alloc_size b + min maxlen (cstrlen s))) b.mem index).2
      s (min maxlen (cstrlen s))).2 (b.mem.drop index) h2z
  simp only [strbuf_insert_strn, hml]
  rw [if_neg (by omega)]
  rw [h1f, h2f, h3f]
  simp only [Bool.and_self]
  rw [if_pos trivial]
  refine ⟨rfl, ?_, h3z⟩
  rw [h3c, h2c, h1c]
  rw [drop_sContent b.mem index hidx]
  have hnil : sContent (strbuf_new_size (strbuf_alloc_size b + min maxlen (cstrlen s))).mem = [] := rfl
  rw [hnil, List.nil_append, List.append_assoc]

/- ===== characterization of the scan loops ===== -/

theorem scanFrom_eq_some (p : Nat → Bool) (i rem j : Nat) :
    scanFrom p i rem = some j ↔
      (i ≤ j ∧ j < i + rem ∧ p j = true ∧ ∀ k, i ≤ k → k < j → p k = false) := by
  induction rem generalizing i with
  | zero =>
    simp only [scanFrom]
    constructor
    · intro h
      cases h
    · intro h
      omega
  | succ r ih =>
    simp only [scanFrom]
    by_cases hp : p i
    · rw [if_pos hp]
      constructor
      · intro h
        cases h
        exact ⟨le_refl _, by omega, hp, fun k hk1 hk2 => by omega⟩
      · intro ⟨h1, h2, h3, h4⟩
        by_cases hij : i = j
        · rw [hij]
        · have := h4 i (le_refl _) (by omega)
          rw [hp] at this
          cases this
    · rw [if_neg hp]
      rw [ih (i + 1)]
      constructor
      · intro ⟨h1, h2, h3, h4⟩
        refine ⟨by omega, by omega, h3, fun k hk1 hk2 => ?_⟩
        by_cases hk : k = i
        · rw [hk]
          exact Bool.not_eq_true _ |>.mp hp
        · exact h4 k (by omega) hk2
      · intro ⟨h1, h2, h3, h4⟩
        have hij : i ≠ j := by
          intro he
          rw [he] at hp
          exact hp h3
        refine ⟨by omega, by omega, h3, fun k hk1 hk2 => h4 k (by omega) hk2⟩

theorem scanFrom_eq_none (p : Nat → Bool) (i rem : Nat) :
    scanFrom p i rem = none ↔ ∀ k, i ≤ k → k < i + rem → p k = false := by
  induction rem generalizing i with
  | zero =>
    simp only [scanFrom]
    constructor
    · intro _ k hk1 hk2
      omega
    · intro _
      trivial
  | succ r ih =>
    simp only [scanFrom]
    by_cases hp : p i
    · rw [if_pos hp]
      constructor
      · intro h
        cases h
      · intro h
        have := h i (le_refl _) (by omega)
        rw [hp] at this
        cases this
    · rw [if_neg hp]
      rw [ih (i + 1)]
      constructor
      · intro h k hk1 hk2
        by_cases hk : k = i
        · rw [hk]
          exact Bool.not_eq_true _ |>.mp hp
        · exact h k (by omega) (by omega)
      · intro h k hk1 hk2
        exact h k (by omega) (by omega)

theorem findIdxLt_eq_some (p : Nat → Bool) (n j : Nat) :
    findIdxLt p n = some j ↔ (j < n ∧ p j = true ∧ ∀ k < j, p k = false) := by
  rw [findIdxLt, scanFrom_eq_some]
  constructor
  · intro ⟨_, h2, h3, h4⟩
    exact ⟨by omega, h3, fun k hk => h4 k (by omega) hk⟩
  · intro ⟨h1, h2, h3⟩
    exact ⟨by omega, by omega, h2, fun k _ hk => h3 k hk⟩

theorem findIdxLt_eq_none (p : Nat → Bool) (n : Nat) :
    findIdxLt p n = none ↔ ∀ k < n, p k = false := by
  rw [findIdxLt, scanFrom_eq_none]
  constructor
  · intro h k hk
    exact h k (by omega) (by omega)
  · intro h k _ hk
    exact h k (by omega)

theorem findIdxLt_congr (p q : Nat → Bool) (n : Nat) (h : ∀ k < n, p k = q k) :
    findIdxLt p n = findIdxLt q n := by
  rw [findIdxLt, findIdxLt]
  have : ∀ rem i, i + rem ≤ n → scanFrom p i rem = scanFrom q i rem := by
    intro rem
    induction rem with
    | zero => intro i _; rfl
    | succ r ih =>
      intro i hi
      simp only [scanFrom]
      rw [h i (by omega), ih (i + 1) (by omega)]
  exact this n 0 (by omega)

/- ===== strncmp and substring matching ===== -/

theorem strncmpZero_iff (n : Nat) (a s : List Nat) (hs : ∀ k < n, readByte s k ≠ 0) :
    strncmpZero a s n = true ↔ ∀ k < n, readByte a k = readByte s k := by
  induction n generalizing a s with
  | zero =>
    simp only [strncmpZero]
    constructor
    · intro _ k hk
      omega
    · intro _
      trivial
  | succ m ih =>
    simp only [strncmpZero]
    by_cases h0 : readByte a 0 = readByte s 0
    · rw [if_pos h0]
      have hs0 : readByte s 0 ≠ 0 := hs 0 (by omega)
      rw [if_neg (by omega)]
      rw [ih a.tail s.tail (fun k hk => by
        rw [readByte_tail]
        exact hs (k + 1) (by omega))]
      constructor
      · intro h k hk
        cases k with
        | zero => exact h0
        | succ k' =>
          rw [← readByte_tail, ← readByte_tail]
          exact h k' (by omega)
      · intro h k hk
        rw [readByte_tail, readByte_tail]
        exact h (k + 1) (by omega)
    · rw [if_neg h0]
      constructor
      · intro h
        cases h
      · intro h
        exact absurd (h 0 (by omega)) h0

theorem isPrefixOf_iff_pointwise (ns cl : List Nat) (hns : ∀ k < ns.length, readByte ns k ≠ 0) :
    ns.isPrefixOf cl = true ↔
      (ns.length ≤ cl.length ∧ ∀ k < ns.length, readByte cl k = readByte ns k) := by
  induction ns generalizing cl with
  | nil =>
    simp only [List.isPrefixOf]
    constructor
    · intro _
      exact ⟨by simp, fun k hk => by simp at hk⟩
    · intro _
      trivial
  | cons x t ih =>
    cases cl with
    | nil =>
      simp only [List.isPrefixOf]
      constructor
      · intro h
        cases h
      · intro ⟨h1, _⟩
        simp at h1
    | cons y u =>
      simp only [List.isPrefixOf, Bool.and_eq_true, beq_iff_eq]
      rw [ih u (fun k hk => by
        have := hns (k + 1) (by simpa using Nat.succ_lt_succ hk)
        simpa [readByte_cons_succ] using this)]
      constructor
      · intro ⟨hxy, h1, h2⟩
        refine ⟨by simpa using Nat.succ_le_succ h1, fun k hk => ?_⟩
        cases k with
        | zero => simpa [readByte_cons_zero] using hxy.symm
        | succ k' =>
          rw [readByte_cons_succ, readByte_cons_succ]
          exact h2 k' (by simpa using Nat.lt_of_succ_lt_succ hk)
      · intro ⟨h1, h2⟩
        refine ⟨?_, by simpa using Nat.le_of_succ_le_succ h1, fun k hk => ?_⟩
        · have := h2 0 (by simp)
          simpa [readByte_cons_zero] using this.symm
        · have := h2 (k + 1) (by simpa using Nat.succ_lt_succ hk)
          simpa [readByte_cons_succ] using this

theorem readByte_sContent_ne_zero (s : List Nat) (k : Nat) (hk : k < cstrlen s) :
    readByte (sContent s) k ≠ 0 := by
  rw [readByte_sContent, if_pos hk]
  exact readByte_lt_cstrlen s k hk

theorem match_iff (hay s : List Nat) (i : Nat) (hi : i < cstrlen hay) (_hs : 1 ≤ cstrlen s) :
    strncmpZero (hay.drop i) s (cstrlen s) = true ↔
      (sContent s).isPrefixOf ((sContent hay).drop i) = true := by
  rw [strncmpZero_iff (cstrlen s) (hay.drop i) s (fun k hk => readByte_lt_cstrlen s k hk)]
  rw [isPrefixOf_iff_pointwise (sContent s) ((sContent hay).drop i) (fun k hk => by
    rw [length_sContent] at hk
    exact readByte_sContent_ne_zero s k hk)]
  rw [length_sContent, List.length_drop, length_sContent]
  constructor
  · intro h
    have hle : i + cstrlen s ≤ cstrlen hay := by
      by_contra hlt
      have hkn : cstrlen hay - i < cstrlen s := by omega
      have h1 := h (cstrlen hay - i) hkn
      rw [readByte_drop] at h1
      have h2 : i + (cstrlen hay - i) = cstrlen hay := by omega
      rw [h2, readByte_cstrlen_self] at h1
      exact readByte_lt_cstrlen s (cstrlen hay - i) hkn h1.symm
    refine ⟨by omega, fun k hk => ?_⟩
    rw [readByte_drop, readByte_sContent, readByte_sContent]
    rw [if_pos (by omega), if_pos (by omega)]
    have := h k hk
    rw [readByte_drop] at this
    exact this
  · intro ⟨h1, h2⟩
    intro k hk
    have h3 := h2 k hk
    rw [readByte_drop, readByte_sContent, readByte_sContent] at h3
    rw [if_pos (by omega), if_pos (by omega)] at h3
    rw [readByte_drop]
    exact h3

/-- First offset at which `ns` occurs in `cl`, scanning offsets `0, 1, ...,
cl.length - 1` left to right (the spec's description of the replace-all
scan). -/
def firstMatch (ns cl : List Nat) : Option Nat :=
  findIdxLt (fun i => ns.isPrefixOf (cl.drop i)) cl.length

theorem findFirstStrMem_spec (hay s : List Nat) (hs : 1 ≤ cstrlen s) :
    findFirstStrMem hay s =
      (match firstMatch (sContent s) (sContent hay) with
       | some i => (i : Int)
       | none => CLZ_NOT_FOUND) := by
  rw [findFirstStrMem, firstMatch, length_sContent]
  rw [findIdxLt_congr _ (fun i => (sContent s).isPrefixOf ((sContent hay).drop i))
    (cstrlen hay) (fun k hk => ?_)]
  show strncmpZero (hay.drop k) s (cstrlen s) = (sContent s).isPrefixOf ((sContent hay).drop k)
  cases hp : strncmpZero (hay.drop k) s (cstrlen s) with
  | false =>
    cases hq : (sContent s).isPrefixOf ((sContent hay).drop k) with
    | false => rfl
    | true =>
      have hgood := (match_iff hay s k hk hs).mpr hq
      rw [hp] at hgood
      cases hgood
  | true =>
    rw [((match_iff hay s k hk hs).mp hp).symm]

theorem findFirstStrMem_of_none (hay s : List Nat) (hs : 1 ≤ cstrlen s)
    (h : firstMatch (sContent s) (sContent hay) = none) :
    findFirstStrMem hay s = CLZ_NOT_FOUND := by
  rw [findFirstStrMem_spec hay s hs, h]

theorem findFirstStrMem_of_some (hay s : List Nat) (i : Nat) (hs : 1 ≤ cstrlen s)
    (h : firstMatch (sContent s) (sContent hay) = some i) :
    findFirstStrMem hay s = (i : Int) := by
  rw [findFirstStrMem_spec hay s hs, h]

/-- Substitute `nt` for every non-overlapping occurrence of `ns` in `cl`,
scanning left to right; returns the new list and the number of
substitutions.  Written from the spec's words for the replace-all
operation; the `max 1` (relevant only to the empty needle, for which the C
loop diverges) makes the recursion well-founded. -/
def substAll (ns nt : List Nat) (cl : List Nat) : List Nat × Nat :=
  match h : firstMatch ns cl with
  | none => (cl, 0)
  | some i =>
    let r := substAll ns nt (cl.drop (i + max 1 ns.length))
    (cl.take i ++ nt ++ r.1, r.2 + 1)
termination_by cl.length
decreasing_by
  have h2 := (findIdxLt_eq_some _ _ _).mp h
  rw [List.length_drop]
  omega

theorem substAll_of_none (ns nt cl : List Nat) (h : firstMatch ns cl = none) :
    substAll ns nt cl = (cl, 0) := by
  rw [substAll, h]

theorem substAll_of_some (ns nt cl : List Nat) (i : Nat) (h : firstMatch ns cl = some i) :
    substAll ns nt cl =
      (cl.take i ++ nt ++ (substAll ns nt (cl.drop (i + max 1 ns.length))).1,
        (substAll ns nt (cl.drop (i + max 1 ns.length))).2 + 1) := by
  rw [substAll, h]

theorem replaceAllLoop_spec (s t : List Nat) (hs : 1 ≤ cstrlen s) :
    ∀ fuel (hay : List Nat) (nb : SB) (count : Nat), hay.length < fuel → ZeroTail nb.mem →
      ∃ b' : SB,
        replaceAllLoop s t fuel nb hay count =
          some (b', count + (substAll (sContent s) (sContent t) (sContent hay)).2) ∧
        sContent b'.mem =
          sContent nb.mem ++ (substAll (sContent s) (sContent t) (sContent hay)).1 ∧
        ZeroTail b'.mem := by
  intro fuel
  induction fuel with
  | zero =>
    intro hay nb count hfuel
    omega
  | succ f ih =>
    intro hay nb count hfuel hnb
    simp only [replaceAllLoop]
    cases h : firstMatch (sContent s) (sContent hay) with
    | none =>
      rw [findFirstStrMem_of_none hay s hs h]
      rw [if_pos rfl]
      obtain ⟨haf, hac, haz⟩ := strbuf_append_str_spec nb hay hnb
      rw [substAll_of_none _ _ _ h]
      exact ⟨(strbuf_append_str nb hay).2, by rw [Nat.add_zero], hac, haz⟩
    | some i =>
      rw [findFirstStrMem_of_some hay s i hs h]
      have hfacts := (findIdxLt_eq_some _ _ _).mp h
      rw [length_sContent] at hfacts
      obtain ⟨hiL, hpref, _⟩ := hfacts
      have hpw := (isPrefixOf_iff_pointwise (sContent s) ((sContent hay).drop i) (fun k hk => by
        rw [length_sContent] at hk
        exact readByte_sContent_ne_zero s k hk)).mp hpref
      rw [length_sContent, List.length_drop, length_sContent] at hpw
      have hin : i + cstrlen s ≤ cstrlen hay := by omega
      rw [if_neg (by
        rw [CLZ_NOT_FOUND]
        omega)]
      rw [show ((i : Int)).toNat = i from rfl]
      obtain ⟨h1f, h1c, h1z⟩ := strbuf_append_strn_spec nb hay i hnb
      obtain ⟨h2f, h2c, h2z⟩ := strbuf_append_str_spec (strbuf_append_strn nb hay i).2 t h1z
      have hL : cstrlen hay ≤ hay.length := cstrlen_le_length hay
      have hdroplen : (hay.drop (i + cstrlen s)).length < f := by
        rw [List.length_drop]
        omega
      obtain ⟨b', hb1, hb2, hb3⟩ :=
        ih (hay.drop (i + cstrlen s)) (strbuf_append_str (strbuf_append_strn nb hay i).2 t).2
          (count + 1) hdroplen h2z
      have hmax : max 1 (sContent s).length = cstrlen s := by
        rw [length_sContent]
        omega
      refine ⟨b', ?_, ?_, hb3⟩
      · rw [hb1]
        rw [substAll_of_some _ _ _ i h]
        rw [drop_sContent hay (i + cstrlen s) hin, hmax]
        congr 1
        congr 1
        omega
      · rw [hb2, h2c, h1c, substAll_of_some _ _ _ i h]
        rw [drop_sContent hay (i + cstrlen s) hin, hmax]
        simp only [List.append_assoc]

theorem strbuf_replace_all_str_spec (b : SB) (s t : List Nat) (hs : 1 ≤ cstrlen s) :
    (strbuf_replace_all_str b s t).map (fun p => (sContent p.1.mem, p.2)) =
      some (substAll (sContent s) (sContent t) (sContent b.mem)) := by
  obtain ⟨b', h1, h2, _⟩ := replaceAllLoop_spec s t hs (b.mem.length + 1) b.mem
      (strbuf_new_size (strbuf_alloc_size b)) 0 (by omega) zeroTail_nil
  have he : strbuf_replace_all_str b s t =
      some (b', 0 + (substAll (sContent s) (sContent t) (sContent b.mem)).2) := h1
  rw [he]
  have hnil : sContent (strbuf_new_size (strbuf_alloc_size b)).mem = [] := rfl
  rw [hnil, List.nil_append] at h2
  rw [Option.map_some']
  rw [h2, Nat.zero_add]

/- ===== the claims ===== -/

/-- C1.  The claim states that strbuf_new_size rounds the requested size up
to a power of two no smaller than CLZ_STRBUF_ALLOC (32), so that
strbuf_new_size(33) has capacity 64 and strbuf_new_size(0) capacity 32.
The code instead stores the requested size verbatim in the size word:
strbuf_new_size(33) reports capacity 33 and strbuf_new_size(0) capacity 0,
contradicting the repository's own doc comment ("The actual size will be
the next power of 2") and its test_new_size test. -/
theorem c1_new_size_stores_size_verbatim :
    strbuf_alloc_size (strbuf_new_size 33) = 33 ∧ (33 : Nat) ≠ 64 ∧
    strbuf_alloc_size (strbuf_new_size 0) = 0 ∧ (0 : Nat) ≠ CLZ_STRBUF_ALLOC ∧
    strbuf_alloc_size (strbuf_new_size 32) = 32 := by
  decide

/-- C2.  The claim states that a successful strbuf_append_strn leaves the
content equal to the old content followed by at most n bytes of the
source, null-terminated.  Because strncpy writes no terminator when
n <= strlen(src), a stale byte left behind the terminator by an earlier
trim is resurrected: trimming "abcd" to "ab" and then appending 1 byte of
"PQR" yields content "abPd" (97 98 80 100), not the documented "abP". -/
theorem c2_append_strn_resurrects_stale_byte :
    strbuf_new_str [97, 98, 99, 100] = ⟨32, [97, 98, 99, 100]⟩ ∧
    strbuf_trim_length (strbuf_new_str [97, 98, 99, 100]) 2 = ⟨32, [97, 98, 0, 100]⟩ ∧
    strbuf_append_strn (strbuf_trim_length (strbuf_new_str [97, 98, 99, 100]) 2) [80, 81, 82] 1 =
      (true, ⟨32, [97, 98, 80, 100]⟩) ∧
    sContent [97, 98, 80, 100] = [97, 98, 80, 100] ∧
    [97, 98, 80, 100] ≠ ([97, 98, 80] : List Nat) := by
  decide

/-- C3.  The claim states that strbuf_resize grows to the least power of
two >= min_size exactly when that exceeds the current capacity, is a
no-op (not-changed) when min_size needs no more than the current capacity,
and rejects min_size < length + 1.  On a buffer of capacity 32 holding
"Hello." (length 6) the code instead: resize to 100 reallocates to
7 * 2^4 = 112 (not 128, not a power of two); resize to 20 shrinks the
capacity to 28 and reports success instead of being a no-op at 32; and
resize to 6 (= length < length + 1) is accepted, reallocating to 7,
instead of being rejected.  This contradicts the repository's own
test_resize test and the doc comment on strbuf_resize. -/
theorem c3_resize_policy_eval :
    strbuf_resize ⟨32, [72, 101, 108, 108, 111, 46]⟩ 100 =
      (true, ⟨112, [72, 101, 108, 108, 111, 46, 0]⟩) ∧ (112 : Nat) ≠ 128 ∧
    strbuf_resize ⟨32, [72, 101, 108, 108, 111, 46]⟩ 20 =
      (true, ⟨28, [72, 101, 108, 108, 111, 46, 0]⟩) ∧ (28 : Nat) ≠ 32 ∧
    strbuf_resize ⟨32, [72, 101, 108, 108, 111, 46]⟩ 6 =
      (true, ⟨7, [72, 101, 108, 108, 111, 46, 0]⟩) := by
  decide

/-- C4.  The claim states that after strbuf_compress the capacity is the
least power of two >= CLZ_STRBUF_ALLOC holding length + 1 bytes — for a
buffer of capacity 1024 holding "Hello." that is 32.  The code's compress
calls resize with minsize = strlen, whose doubling loop starts at
length + 1 = 7 and stops immediately, so the capacity becomes 7, not 32
(content preserved).  This contradicts the repository's own test_compress
test, which expects 32. -/
theorem c4_compress_eval :
    strbuf_compress ⟨1024, [72, 101, 108, 108, 111, 46]⟩ =
      (true, ⟨7, [72, 101, 108, 108, 111, 46, 0]⟩) ∧
    sContent [72, 101, 108, 108, 111, 46, 0] = [72, 101, 108, 108, 111, 46] ∧
    (7 : Nat) ≠ 32 := by
  decide

/-- C5 counterexample.  The claim's insert-at-end/append equivalence fails
on a buffer with a stale byte behind its terminator: trimming "abcd" to
"ab" leaves 100 ('d') at offset 3; appending "X" then yields content
"abXd" while inserting "X" at the end (which rebuilds into fresh memory)
yields "abX". -/
theorem c5_insert_append_counterexample :
    strbuf_trim_length (strbuf_new_str [97, 98, 99, 100]) 2 = ⟨32, [97, 98, 0, 100]⟩ ∧
    cstrlen ((⟨32, [97, 98, 0, 100]⟩ : SB)).mem = 2 ∧
    sContent (strbuf_insert_str ⟨32, [97, 98, 0, 100]⟩ [88] 2).2.mem = [97, 98, 88] ∧
    sContent (strbuf_append_str ⟨32, [97, 98, 0, 100]⟩ [88]).2.mem = [97, 98, 88, 100] ∧
    ([97, 98, 88] : List Nat) ≠ [97, 98, 88, 100] := by
  decide

/-- C5 (amended).  For every buffer whose bytes beyond the terminator are
zero (true of all buffers built by construction and appends alone, but
breakable by trim), strbuf_insert_str at index length(b) succeeds and
produces the same content as strbuf_append_str; and for every index
strictly greater than length(b), strbuf_insert_strn, strbuf_insert_str
and strbuf_insert_char perform no insertion, report failure, and leave
the buffer unchanged. -/
theorem c5_insert_at_end_equiv_amended (b : SB) (s : List Nat) :
    (ZeroTail b.mem →
      (strbuf_insert_str b s (cstrlen b.mem)).1 = true ∧
      (strbuf_append_str b s).1 = true ∧
      sContent (strbuf_insert_str b s (cstrlen b.mem)).2.mem =
        sContent (strbuf_append_str b s).2.mem) ∧
    (∀ index, cstrlen b.mem < index →
      (∀ maxlen, strbuf_insert_strn b s index maxlen = (false, b)) ∧
      strbuf_insert_str b s index = (false, b) ∧
      (∀ c, strbuf_insert_char b c index = (false, b))) := by
  constructor
  · intro hb
    obtain ⟨hif, hic, _⟩ :=
      strbuf_insert_strn_spec b s (cstrlen b.mem) (cstrlen s) (le_refl _)
    obtain ⟨haf, hac, _⟩ := strbuf_append_str_spec b s hb
    refine ⟨hif, haf, ?_⟩
    rw [strbuf_insert_str, hic, hac]
    rw [Nat.min_self, take_full_sContent s, take_full_sContent b.mem]
    have hd : (sContent b.mem).drop (cstrlen b.mem) = [] := by
      rw [← length_sContent b.mem, List.drop_length]
    rw [hd, List.append_nil]
  · intro index hidx
    refine ⟨fun maxlen => ?_, ?_, fun c => ?_⟩
    · rw [strbuf_insert_strn, if_pos (by omega)]
    · rw [strbuf_insert_str, strbuf_insert_strn, if_pos (by omega)]
    · rw [strbuf_insert_char, if_pos (by omega)]

/-- C5 witness: the amended equivalence and the out-of-range rejection at
a concrete clean buffer "ab" with s = "XY". -/
theorem c5_witness :
    ZeroTail (strbuf_new_str [97, 98]).mem ∧
    sContent (strbuf_insert_str (strbuf_new_str [97, 98]) [88, 89]
        (cstrlen (strbuf_new_str [97, 98]).mem)).2.mem =
      sContent (strbuf_append_str (strbuf_new_str [97, 98]) [88, 89]).2.mem ∧
    strbuf_insert_str (strbuf_new_str [97, 98]) [88, 89] 3 = (false, strbuf_new_str [97, 98]) :=
  ⟨by decide,
    ((c5_insert_at_end_equiv_amended (strbuf_new_str [97, 98]) [88, 89]).1 (by decide)).2.2,
    ((c5_insert_at_end_equiv_amended (strbuf_new_str [97, 98]) [88, 89]).2 3 (by decide)).2.1⟩

/-- C6 counterexample.  With the empty needle on the nonempty buffer "a",
the find at the head of the replace-all loop reports a match at offset 0
(not CLZ_NOT_FOUND) and the haystack advances by 0 + strlen("") = 0
bytes, so the C loop repeats the identical state forever and never
returns; the fueled model reports the divergence as `none`.  The claim's
"for every buffer, needle and replacement ... returns the number of
replacements" is therefore false for the empty needle. -/
theorem c6_empty_needle_counterexample :
    strbuf_replace_all_str (strbuf_new_str [97]) [] [89, 90] = none ∧
    findFirstStrMem [97] [] = 0 ∧ (0 : Int) ≠ CLZ_NOT_FOUND ∧
    List.drop ((0 : Int).toNat + cstrlen ([] : List Nat)) [97] = [97] := by
  decide

/-- C6 (amended).  For every buffer and every nonempty needle s,
strbuf_replace_all_str terminates, returns the number of non-overlapping
occurrences found scanning left to right, and produces the content
obtained by substituting the replacement for every such match
(`substAll`, written from the spec's words); in particular on content
"aXbXcX", replacing "X" with "YZ" returns 3 and yields "aYZbYZcYZ". -/
theorem c6_replace_all_amended (b : SB) (s t : List Nat) (hs : 1 ≤ cstrlen s) :
    (strbuf_replace_all_str b s t).map (fun p => (sContent p.1.mem, p.2)) =
      some (substAll (sContent s) (sContent t) (sContent b.mem)) :=
  strbuf_replace_all_str_spec b s t hs

/-- C6 witness: the amended theorem applied to the spec's own scenario,
buffer "aXbXcX", needle "X", replacement "YZ": 3 replacements and content
"aYZbYZcYZ". -/
theorem c6_witness :
    1 ≤ cstrlen [88] ∧
    (strbuf_replace_all_str (strbuf_new_str [97, 88, 98, 88, 99, 88]) [88] [89, 90]).map
        (fun p => (sContent p.1.mem, p.2)) =
      some (substAll (sContent [88]) (sContent [89, 90])
        (sContent (strbuf_new_str [97, 88, 98, 88, 99, 88]).mem)) ∧
    (strbuf_replace_all_str (strbuf_new_str [97, 88, 98, 88, 99, 88]) [88] [89, 90]).map
        (fun p => (sContent p.1.mem, p.2)) =
      some ([97, 89, 90, 98, 89, 90, 99, 89, 90], 3) :=
  ⟨by decide,
    c6_replace_all_amended (strbuf_new_str [97, 88, 98, 88, 99, 88]) [88] [89, 90] (by decide),
    by decide⟩

theorem strbuf_find_first_str_cases (b : SB) (s : List Nat) :
    strbuf_find_first_str b s = CLZ_NOT_FOUND ∨ 0 ≤ strbuf_find_first_str b s := by
  rw [strbuf_find_first_str, findFirstStrMem]
  cases h : findIdxLt (fun i => strncmpZero (b.mem.drop i) s (cstrlen s)) (cstrlen b.mem) with
  | none => exact Or.inl rfl
  | some i => exact Or.inr (Int.natCast_nonneg i)

/-- C7.  CLZ_NOT_FOUND (-1) and CLZ_GENERAL_FAIL (-2) are distinct
reserved negative values; strbuf_replace_first_str returns CLZ_NOT_FOUND
exactly when the find reports the needle absent, and CLZ_GENERAL_FAIL
exactly when the needle is present but its checked allocation (the
`malloc` for the assembled result, modeled by `ok`) fails — never the
same value for both outcomes. -/
theorem c7_sentinel_distinctness (ok : Bool) (b : SB) (s t : List Nat) :
    CLZ_NOT_FOUND ≠ CLZ_GENERAL_FAIL ∧ CLZ_NOT_FOUND < 0 ∧ CLZ_GENERAL_FAIL < 0 ∧
    ((strbuf_replace_first_str ok b s t).1 = CLZ_NOT_FOUND ↔
      strbuf_find_first_str b s = CLZ_NOT_FOUND) ∧
    ((strbuf_replace_first_str ok b s t).1 = CLZ_GENERAL_FAIL ↔
      (strbuf_find_first_str b s ≠ CLZ_NOT_FOUND ∧ ok = false)) := by
  have hd := strbuf_find_first_str_cases b s
  by_cases hf : strbuf_find_first_str b s = CLZ_NOT_FOUND
  · have he : strbuf_replace_first_str ok b s t = (CLZ_NOT_FOUND, b) := by
      simp only [strbuf_replace_first_str]
      rw [if_pos hf]
    rw [he]
    refine ⟨by decide, by decide, by decide, ⟨fun _ => hf, fun _ => rfl⟩, ?_, ?_⟩
    · intro h2
      have h3 : CLZ_NOT_FOUND = CLZ_GENERAL_FAIL := h2
      rw [CLZ_NOT_FOUND, CLZ_GENERAL_FAIL] at h3
      omega
    · intro ⟨hne, _⟩
      exact absurd hf hne
  · have h0 : 0 ≤ strbuf_find_first_str b s := hd.resolve_left hf
    cases ok with
    | true =>
      have he : (strbuf_replace_first_str true b s t).1 = strbuf_find_first_str b s := by
        simp only [strbuf_replace_first_str]
        rw [if_neg hf, if_pos trivial]
      rw [he]
      refine ⟨by decide, by decide, by decide, Iff.rfl, ?_, ?_⟩
      · intro h2
        rw [CLZ_GENERAL_FAIL] at h2
        omega
      · intro ⟨_, hok⟩
        cases hok
    | false =>
      have he : (strbuf_replace_first_str false b s t).1 = CLZ_GENERAL_FAIL := by
        simp only [strbuf_replace_first_str]
        rw [if_neg hf]
        rfl
      rw [he]
      refine ⟨by decide, by decide, by decide, ⟨?_, ?_⟩, ⟨fun _ => ⟨hf, rfl⟩, fun _ => rfl⟩⟩
      · intro h2
        exact absurd h2 (by decide)
      · intro h2
        exact absurd h2 hf

/-- C8 counterexample.  On the empty buffer the find loop `for (i = 0;
i < strlen(*destbuf); ++i)` never runs, so the empty needle is reported
CLZ_NOT_FOUND (-1), not offset 0 as the claim states for every buffer. -/
theorem c8_empty_buffer_counterexample :
    strbuf_find_first_str strbuf_new [] = CLZ_NOT_FOUND ∧ CLZ_NOT_FOUND ≠ (0 : Int) := by
  decide

/-- C8 (amended).  strbuf_find_first_str with the empty needle returns
offset 0 for every buffer of nonzero length (strncmp with n = 0 matches
immediately at i = 0), but returns CLZ_NOT_FOUND for the empty buffer,
whose scan loop body never runs. -/
theorem c8_find_empty_needle_amended (b : SB) :
    (1 ≤ cstrlen b.mem → strbuf_find_first_str b [] = 0) ∧
    (cstrlen b.mem = 0 → strbuf_find_first_str b [] = CLZ_NOT_FOUND) := by
  constructor
  · intro h1
    rw [strbuf_find_first_str, findFirstStrMem]
    have he : findIdxLt (fun i => strncmpZero (b.mem.drop i) [] (cstrlen ([] : List Nat)))
        (cstrlen b.mem) = some 0 := by
      rw [findIdxLt_eq_some]
      exact ⟨by omega, rfl, fun k hk => absurd hk (by omega)⟩
    rw [he]
    rfl
  · intro h0
    rw [strbuf_find_first_str, findFirstStrMem, h0]
    rfl

/-- C8 witness: the amended behaviour at the concrete nonempty buffer "a". -/
theorem c8_witness :
    1 ≤ cstrlen (strbuf_new_str [97]).mem ∧
    strbuf_find_first_str (strbuf_new_str [97]) [] = 0 :=
  ⟨by decide, (c8_find_empty_needle_amended (strbuf_new_str [97])).1 (by decide)⟩

theorem readByte_reverse (l : List Nat) (i : Nat) (h : i < l.length) :
    readByte l.reverse i = readByte l (l.length - 1 - i) := by
  induction l generalizing i with
  | nil => simp at h
  | cons x t ih =>
    rw [List.reverse_cons, readByte_append]
    simp only [List.length_reverse, List.length_cons]
    by_cases hi : i < t.length
    · rw [if_pos hi, ih i hi]
      have h2 : t.length + 1 - 1 - i = (t.length - 1 - i) + 1 := by omega
      rw [h2, readByte_cons_succ]
    · rw [if_neg hi]
      have hieq : i = t.length := by
        simp only [List.length_cons] at h
        omega
      rw [hieq]
      have h2 : t.length + 1 - 1 - t.length = 0 := by omega
      rw [Nat.sub_self, h2, readByte_cons_zero]
      rfl

/-- C9.  strbuf_reverse (with its strdup succeeding) succeeds, preserves
the length, puts the byte previously at offset length-1-i at offset i,
and applying it twice restores the buffer exactly. -/
theorem c9_reverse_involution (b : SB) :
    (strbuf_reverse true b).1 = true ∧
    cstrlen (strbuf_reverse true b).2.mem = cstrlen b.mem ∧
    (∀ i, i < cstrlen b.mem →
      readByte (strbuf_reverse true b).2.mem i = readByte b.mem (cstrlen b.mem - 1 - i)) ∧
    strbuf_reverse true (strbuf_reverse true b).2 = (true, b) := by
  have hrev : ∀ c : SB, strbuf_reverse true c =
      (true, ⟨c.alloc, writeBytes c.mem 0 (sContent c.mem).reverse⟩) := by
    intro c
    rw [strbuf_reverse, if_pos rfl]
  have hLlen : cstrlen b.mem ≤ b.mem.length := cstrlen_le_length b.mem
  have hrlen : ((sContent b.mem).reverse).length = cstrlen b.mem := by
    rw [List.length_reverse, length_sContent]
  have hread1 : ∀ i, readByte (writeBytes b.mem 0 (sContent b.mem).reverse) i =
      if i < cstrlen b.mem then readByte b.mem (cstrlen b.mem - 1 - i) else readByte b.mem i := by
    intro i
    rw [readByte_writeBytes, hrlen]
    by_cases hi : i < cstrlen b.mem
    · rw [if_neg (by omega), if_pos (by omega), if_pos hi, Nat.sub_zero]
      rw [readByte_reverse _ i (by rw [length_sContent]; omega)]
      rw [length_sContent, readByte_sContent, if_pos (by omega)]
    · rw [if_neg (by omega), if_neg (by omega), if_neg hi]
  have hcs1 : cstrlen (writeBytes b.mem 0 (sContent b.mem).reverse) = cstrlen b.mem := by
    apply cstrlen_eq_of
    · intro i hi
      rw [hread1, if_pos hi]
      exact readByte_lt_cstrlen b.mem _ (by omega)
    · rw [hread1, if_neg (by omega)]
      exact readByte_cstrlen_self b.mem
  refine ⟨by rw [hrev], by rw [hrev]; exact hcs1, ?_, ?_⟩
  · intro i hi
    rw [hrev]
    rw [hread1, if_pos hi]
  · rw [hrev b]
    rw [hrev ⟨b.alloc, writeBytes b.mem 0 (sContent b.mem).reverse⟩]
    have hcontent : sContent (writeBytes b.mem 0 (sContent b.mem).reverse) =
        (sContent b.mem).reverse := by
      apply eq_of_readByte
      · rw [length_sContent, hcs1, hrlen]
      · intro i
        rw [readByte_sContent, hcs1, hread1]
        by_cases hi : i < cstrlen b.mem
        · rw [if_pos hi, if_pos hi, readByte_reverse _ i (by rw [length_sContent]; omega)]
          rw [length_sContent, readByte_sContent, if_pos (by omega)]
        · rw [if_neg hi, readByte_ge_length _ i (by rw [hrlen]; omega)]
    have hm2 : writeBytes (writeBytes b.mem 0 (sContent b.mem).reverse) 0
        (sContent (writeBytes b.mem 0 (sContent b.mem).reverse)).reverse = b.mem := by
      rw [hcontent, List.reverse_reverse]
      apply eq_of_readByte
      · rw [length_writeBytes, length_writeBytes, length_sContent, hrlen]
        omega
      · intro i
        rw [readByte_writeBytes, length_sContent]
        by_cases hi : i < cstrlen b.mem
        · rw [if_neg (by omega), if_pos (by omega), Nat.sub_zero, readByte_sContent, if_pos hi]
        · rw [if_neg (by omega), if_neg (by omega), hread1, if_neg hi]
    rw [hm2]

/-- C10 counterexample.  On the buffer "ab", replacing the first 'a' by
the null byte returns index 0 but truncates the logical length from 2 to
0, so "every other byte and the length are unchanged" fails as stated for
arbitrary replacement characters. -/
theorem c10_null_replacement_counterexample :
    (strbuf_replace_first_char ⟨32, [97, 98]⟩ 97 0).1 = 0 ∧
    cstrlen (strbuf_replace_first_char ⟨32, [97, 98]⟩ 97 0).2.mem = 0 ∧
    cstrlen ((⟨32, [97, 98]⟩ : SB)).mem = 2 := by
  decide

/-- C10 (amended).  When strbuf_replace_first_char returns an index i >= 0,
i is the least index at which c occurs, the byte there becomes v, every
other byte, the stored capacity and the raw region length are unchanged
(no reallocation), and — provided v is not the null byte — the length is
unchanged; when it returns CLZ_NOT_FOUND (in particular whenever c does
not occur) the buffer is entirely unchanged. -/
theorem c10_replace_first_char_frame_amended (b : SB) (c v : Nat) :
    (strbuf_find_first_char b c = CLZ_NOT_FOUND →
      strbuf_replace_first_char b c v = (CLZ_NOT_FOUND, b)) ∧
    (∀ i : Nat, strbuf_find_first_char b c = (i : Int) →
      i < cstrlen b.mem ∧ readByte b.mem i = c ∧ (∀ j < i, readByte b.mem j ≠ c) ∧
      strbuf_replace_first_char b c v = ((i : Int), ⟨b.alloc, writeBytes b.mem i [v]⟩) ∧
      readByte (writeBytes b.mem i [v]) i = v ∧
      (∀ j, j ≠ i → readByte (writeBytes b.mem i [v]) j = readByte b.mem j) ∧
      (writeBytes b.mem i [v]).length = b.mem.length ∧ b.alloc = b.alloc ∧
      (v ≠ 0 → cstrlen (writeBytes b.mem i [v]) = cstrlen b.mem)) := by
  constructor
  · intro h
    rw [strbuf_replace_first_char, h, if_pos rfl]
  · intro i hi
    have hfacts : i < cstrlen b.mem ∧ (readByte b.mem i == c) = true ∧
        ∀ k < i, (readByte b.mem k == c) = false := by
      rw [strbuf_find_first_char, findFirstCharMem] at hi
      cases he : findIdxLt (fun j => readByte b.mem j == c) (cstrlen b.mem) with
      | none =>
        rw [he] at hi
        rw [show (match (none : Option Nat) with
            | some k => (k : Int)
            | none => CLZ_NOT_FOUND) = CLZ_NOT_FOUND from rfl, CLZ_NOT_FOUND] at hi
        omega
      | some j =>
        rw [he] at hi
        have hji : j = i := by
          have : (j : Int) = (i : Int) := hi
          exact_mod_cast this
        rw [hji] at he
        exact (findIdxLt_eq_some _ _ _).mp he
    obtain ⟨hiL, hbeq, hleast⟩ := hfacts
    have hbc : readByte b.mem i = c := by simpa using hbeq
    have hrepl : strbuf_replace_first_char b c v = ((i : Int), ⟨b.alloc, writeBytes b.mem i [v]⟩) := by
      rw [strbuf_replace_first_char, hi]
      rw [if_neg (by rw [CLZ_NOT_FOUND]; omega)]
      rw [show ((i : Int)).toNat = i from rfl]
    have hwlen : (writeBytes b.mem i [v]).length = b.mem.length := by
      rw [length_writeBytes, List.length_singleton]
      have := cstrlen_le_length b.mem
      omega
    refine ⟨hiL, hbc, ?_, hrepl, ?_, ?_, hwlen, rfl, ?_⟩
    · intro j hj
      have := hleast j hj
      intro hcon
      rw [hcon] at this
      simp at this
    · rw [readByte_writeBytes, List.length_singleton]
      rw [if_neg (by omega), if_pos (by omega), Nat.sub_self, readByte_cons_zero]
    · intro j hj
      rw [readByte_writeBytes, List.length_singleton]
      by_cases h1 : j < i
      · rw [if_pos h1]
      · rw [if_neg h1, if_neg (by omega)]
    · intro hv
      apply cstrlen_eq_of
      · intro k hk
        rw [readByte_writeBytes, List.length_singleton]
        by_cases h1 : k < i
        · rw [if_pos h1]
          exact readByte_lt_cstrlen b.mem k hk
        · by_cases h2 : k < i + 1
          · rw [if_neg h1, if_pos h2]
            have : k - i = 0 := by omega
            rw [this, readByte_cons_zero]
            exact hv
          · rw [if_neg h1, if_neg h2]
            exact readByte_lt_cstrlen b.mem k hk
      · rw [readByte_writeBytes, List.length_singleton]
        rw [if_neg (by omega), if_neg (by omega)]
        exact readByte_cstrlen_self b.mem

/-- C9 witness: the reversal facts applied to the concrete buffer "abc". -/
theorem c9_witness :
    (strbuf_reverse true (strbuf_new_str [97, 98, 99])).1 = true ∧
    readByte (strbuf_reverse true (strbuf_new_str [97, 98, 99])).2.mem 0 =
      readByte (strbuf_new_str [97, 98, 99]).mem
        (cstrlen (strbuf_new_str [97, 98, 99]).mem - 1 - 0) ∧
    strbuf_reverse true (strbuf_reverse true (strbuf_new_str [97, 98, 99])).2 =
      (true, strbuf_new_str [97, 98, 99]) :=
  ⟨(c9_reverse_involution (strbuf_new_str [97, 98, 99])).1,
    (c9_reverse_involution (strbuf_new_str [97, 98, 99])).2.2.1 0 (by decide),
    (c9_reverse_involution (strbuf_new_str [97, 98, 99])).2.2.2⟩

/-- C10 witness: the frame facts applied to the buffer "ab" with c = 'b',
v = 'z' (a non-null replacement). -/
theorem c10_witness :
    strbuf_find_first_char ⟨32, [97, 98]⟩ 98 = ((1 : Nat) : Int) ∧
    strbuf_replace_first_char ⟨32, [97, 98]⟩ 98 122 =
      ((1 : Int), ⟨32, writeBytes [97, 98] 1 [122]⟩) ∧
    ((122 : Nat) ≠ 0 → cstrlen (writeBytes [97, 98] 1 [122]) = cstrlen [97, 98]) :=
  ⟨by decide,
    ((c10_replace_first_char_frame_amended ⟨32, [97, 98]⟩ 98 122).2 1 (by decide)).2.2.2.1,
    ((c10_replace_first_char_frame_amended ⟨32, [97, 98]⟩ 98 122).2 1 (by decide)).2.2.2.2.2.2.2.2⟩

end Libclz
